import Mathlib

set_option linter.unusedSectionVars false

/-!
Shallow embedding of the rust-freqdist crate (src/lib.rs).

A FrequencyDistribution is a HashMap from keys to usize counts plus a
running sum_counts field.  The HashMap is modelled as an association list
whose operations act on the first entry with a matching key (the public
operations of the crate keep keys unique, which is proved below as the
nodup invariant); usize is modelled as Nat, with truncated subtraction in
remove and a separately proved no-underflow condition.  Iterators are
modelled as the lists of items they yield.
-/

namespace Freqdist

variable {K : Type} [DecidableEq K]

/-- Model of HashMap::contains_key on an association list. -/
def mapContains : List (K × Nat) → K → Bool
  | [], _ => false
  | (q, _) :: rest, k => if q = k then true else mapContains rest k

/-- Model of HashMap::get: the value of the first entry with the given key. -/
def mapGet : List (K × Nat) → K → Option Nat
  | [], _ => none
  | (q, c) :: rest, k => if q = k then some c else mapGet rest k

/-- Model of the statement *self.hashmap.get_mut(&k).unwrap() += incr in
insert_or_incr_by: increments the first entry with the given key. -/
def mapIncr : List (K × Nat) → K → Nat → List (K × Nat)
  | [], _, _ => []
  | (q, c) :: rest, k, incr =>
    if q = k then (q, c + incr) :: rest else (q, c) :: mapIncr rest k incr

/-- Model of HashMap::remove: removes the first entry with the given key and
returns its value together with the remaining entries. -/
def mapRemove : List (K × Nat) → K → Option Nat × List (K × Nat)
  | [], _ => (none, [])
  | (q, c) :: rest, k =>
    if q = k then (some c, rest)
    else ((mapRemove rest k).1, (q, c) :: (mapRemove rest k).2)

/-- Collected output of NonZeroKeysIter (lib.rs, NonZeroKeysIter::next): the
keys of the entries whose count is strictly positive, in iteration order. -/
def nonZeroKeys : List (K × Nat) → List K
  | [] => []
  | (k, c) :: rest => if 0 < c then k :: nonZeroKeys rest else nonZeroKeys rest

/-- Sum of the counts stored in the map (used to state the sum invariant). -/
def sumStored (l : List (K × Nat)) : Nat := (l.map Prod.snd).sum

/-- Sum of the increments that a pair sequence carries for a given key. -/
def keySum (ps : List (K × Nat)) (k : K) : Nat :=
  ((ps.filter fun p => decide (p.1 = k)).map Prod.snd).sum

/-- The FrequencyDistribution struct of lib.rs: the backing hashmap and the
sum_counts field. -/
structure FrequencyDistribution (K : Type) where
  hashmap : List (K × Nat)
  sum_counts : Nat
deriving DecidableEq

namespace FrequencyDistribution

/-- FrequencyDistribution::with_capacity_and_hash_state: a fresh empty map
(the capacity argument only pre-allocates storage) and sum_counts = 0. -/
def with_capacity_and_hash_state (_size : Nat) : FrequencyDistribution K :=
  ⟨[], 0⟩

/-- FrequencyDistribution::with_hash_state: a fresh empty map and
sum_counts = 0. -/
def with_hash_state : FrequencyDistribution K :=
  ⟨[], 0⟩

/-- FrequencyDistribution::new. -/
def new : FrequencyDistribution K :=
  with_hash_state

/-- FrequencyDistribution::with_capacity. -/
def with_capacity (size : Nat) : FrequencyDistribution K :=
  with_capacity_and_hash_state size

/-- Distribution::len for FrequencyDistribution: self.hashmap.len(). -/
def len (d : FrequencyDistribution K) : Nat :=
  d.hashmap.length

/-- Index::index for FrequencyDistribution:
self.hashmap.get(index).unwrap_or(ZERO) where ZERO is the static 0. -/
def index (d : FrequencyDistribution K) (k : K) : Nat :=
  (mapGet d.hashmap k).getD 0

/-- Distribution::get for FrequencyDistribution: self[k]. -/
def get (d : FrequencyDistribution K) (k : K) : Nat :=
  d.index k

/-- Distribution::clear for FrequencyDistribution: self.hashmap.clear() —
note that the sum_counts field is left untouched by the source. -/
def clear (d : FrequencyDistribution K) : FrequencyDistribution K :=
  ⟨[], d.sum_counts⟩

/-- FrequencyDistribution::insert_or_incr_by: insert the key with the
increment as its count when absent, otherwise add the increment to the
existing count; unconditionally add the increment to sum_counts. -/
def insert_or_incr_by (d : FrequencyDistribution K) (k : K) (incr : Nat) :
    FrequencyDistribution K :=
  if mapContains d.hashmap k = false then
    ⟨d.hashmap ++ [(k, incr)], d.sum_counts + incr⟩
  else
    ⟨mapIncr d.hashmap k incr, d.sum_counts + incr⟩

/-- Distribution::insert for FrequencyDistribution:
self.insert_or_incr_by(k, 1). -/
def insert (d : FrequencyDistribution K) (k : K) : FrequencyDistribution K :=
  d.insert_or_incr_by k 1

/-- Distribution::remove for FrequencyDistribution: match on
self.hashmap.remove(k); on Some(count) the sum_counts field is decremented
by count, on None nothing happens. -/
def remove (d : FrequencyDistribution K) (k : K) : FrequencyDistribution K :=
  match mapRemove d.hashmap k with
  | (some count, rest) => ⟨rest, d.sum_counts - count⟩
  | (none, _) => ⟨d.hashmap, d.sum_counts⟩

/-- Extend::extend for FrequencyDistribution: insert_or_incr_by for every
pair of the sequence, in order. -/
def extend (d : FrequencyDistribution K) (ps : List (K × Nat)) :
    FrequencyDistribution K :=
  ps.foldl (fun a p => a.insert_or_incr_by p.1 p.2) d

/-- FromIterator::from_iter for FrequencyDistribution.  The iterator is
modelled as its size hint (lower bound, optional upper bound) together with
the list of pairs it yields: the source pre-sizes with the upper bound when
one is available and with the lower bound otherwise, then runs
insert_or_incr_by over the pairs in order. -/
def from_iter (hint : Nat × Option Nat) (ps : List (K × Nat)) :
    FrequencyDistribution K :=
  let fdist : FrequencyDistribution K :=
    match hint.2 with
    | some upper => with_capacity_and_hash_state upper
    | none => with_capacity_and_hash_state hint.1
  extend fdist ps

/-- FrequencyDistribution::iter: the (key, count) pairs, in map order. -/
def iter (d : FrequencyDistribution K) : List (K × Nat) :=
  d.hashmap

/-- FrequencyDistribution::keys: the keys, in map order. -/
def keys (d : FrequencyDistribution K) : List K :=
  d.hashmap.map Prod.fst

/-- IntoIterator::into_iter for FrequencyDistribution: consumes the
distribution, yielding its (key, count) pairs. -/
def into_iter (d : FrequencyDistribution K) : List (K × Nat) :=
  d.hashmap

/-- FrequencyDistribution::iter_non_zero: NonZeroKeysIter over self.iter(). -/
def iter_non_zero (d : FrequencyDistribution K) : List K :=
  nonZeroKeys d.iter

end FrequencyDistribution

/-- A public mutating operation on an existing distribution. -/
inductive Op (K : Type) where
  | insert (k : K)
  | extend (ps : List (K × Nat))
  | remove (k : K)
  | clear
deriving DecidableEq

/-- Apply one public operation. -/
def applyOp (d : FrequencyDistribution K) : Op K → FrequencyDistribution K
  | .insert k => d.insert k
  | .extend ps => d.extend ps
  | .remove k => d.remove k
  | .clear => d.clear

/-- Apply a sequence of public operations, in order. -/
def applyOps (d : FrequencyDistribution K) (ops : List (Op K)) :
    FrequencyDistribution K :=
  ops.foldl applyOp d

/-- A public constructor of a distribution. -/
inductive InitOp (K : Type) where
  | new
  | with_capacity (n : Nat)
  | from_iterator (hint : Nat × Option Nat) (ps : List (K × Nat))
deriving DecidableEq

/-- Run a public constructor. -/
def runInit : InitOp K → FrequencyDistribution K
  | .new => FrequencyDistribution.new
  | .with_capacity n => FrequencyDistribution.with_capacity n
  | .from_iterator hint ps => FrequencyDistribution.from_iter hint ps

/-- The sum invariant relating the sum_counts field to the stored counts:
sum_counts dominates the sum of the stored counts. -/
abbrev Inv (d : FrequencyDistribution K) : Prop :=
  sumStored d.hashmap ≤ d.sum_counts

/-- Whether a public operation can introduce the given key. -/
def opInserts : Op K → K → Bool
  | .insert q, k => decide (q = k)
  | .extend ps, k => mapContains ps k
  | .remove _, _ => false
  | .clear, _ => false

/-- Whether a public constructor can introduce the given key. -/
def initMentions : InitOp K → K → Bool
  | .new, _ => false
  | .with_capacity _, _ => false
  | .from_iterator _ ps, k => mapContains ps k

/-! Lemmas about the association-list model of the HashMap. -/

theorem mapContains_eq_false_iff (l : List (K × Nat)) (k : K) :
    mapContains l k = false ↔ mapGet l k = none := by
  induction l with
  | nil => simp [mapContains, mapGet]
  | cons p rest ih =>
    obtain ⟨q, c⟩ := p
    by_cases h : q = k <;> simp [mapContains, mapGet, h, ih]

theorem mapGet_append_of_none {l : List (K × Nat)} {k : K}
    (h : mapGet l k = none) (m : List (K × Nat)) :
    mapGet (l ++ m) k = mapGet m k := by
  induction l with
  | nil => simp
  | cons p rest ih =>
    obtain ⟨q, c⟩ := p
    by_cases hq : q = k
    · simp [mapGet, hq] at h
    · simp only [mapGet, hq, if_false, List.cons_append] at h ⊢
      exact ih h

theorem mapGet_singleton (k : K) (c : Nat) : mapGet [(k, c)] k = some c := by
  simp [mapGet]

theorem mapGet_mapIncr_self (l : List (K × Nat)) (k : K) (i : Nat) :
    mapGet (mapIncr l k i) k = (mapGet l k).map (· + i) := by
  induction l with
  | nil => simp [mapIncr, mapGet]
  | cons p rest ih =>
    obtain ⟨q, c⟩ := p
    by_cases h : q = k <;> simp [mapIncr, mapGet, h, ih]

theorem mapGet_mapIncr_of_ne {q k : K} (h : q ≠ k) (l : List (K × Nat))
    (i : Nat) : mapGet (mapIncr l q i) k = mapGet l k := by
  induction l with
  | nil => simp [mapIncr]
  | cons p rest ih =>
    obtain ⟨r, c⟩ := p
    by_cases hr : r = q
    · subst hr
      simp [mapIncr, mapGet, h]
    · simp [mapIncr, mapGet, hr, ih]

theorem sumStored_cons (q : K) (c : Nat) (l : List (K × Nat)) :
    sumStored ((q, c) :: l) = c + sumStored l := by
  simp [sumStored]

theorem sumStored_append (l m : List (K × Nat)) :
    sumStored (l ++ m) = sumStored l + sumStored m := by
  simp [sumStored]

theorem sumStored_mapIncr {l : List (K × Nat)} {k : K}
    (h : mapContains l k = true) (i : Nat) :
    sumStored (mapIncr l k i) = sumStored l + i := by
  induction l with
  | nil => simp [mapContains] at h
  | cons p rest ih =>
    obtain ⟨q, c⟩ := p
    by_cases hq : q = k
    · simp [mapIncr, hq, sumStored_cons]
      omega
    · simp only [mapContains, hq, if_false] at h
      simp [mapIncr, hq, sumStored_cons, ih h]
      omega

theorem mapRemove_fst (l : List (K × Nat)) (k : K) :
    (mapRemove l k).1 = mapGet l k := by
  induction l with
  | nil => simp [mapRemove, mapGet]
  | cons p rest ih =>
    obtain ⟨q, c⟩ := p
    by_cases h : q = k <;> simp [mapRemove, mapGet, h, ih]

theorem mapRemove_snd_of_none {l : List (K × Nat)} {k : K}
    (h : mapGet l k = none) : (mapRemove l k).2 = l := by
  induction l with
  | nil => simp [mapRemove]
  | cons p rest ih =>
    obtain ⟨q, c⟩ := p
    by_cases hq : q = k
    · simp [mapGet, hq] at h
    · simp only [mapGet, hq, if_false] at h
      simp [mapRemove, hq, ih h]

theorem sumStored_mapRemove {l : List (K × Nat)} {k : K} {c : Nat}
    (h : mapGet l k = some c) :
    sumStored (mapRemove l k).2 + c = sumStored l := by
  induction l with
  | nil => simp [mapGet] at h
  | cons p rest ih =>
    obtain ⟨q, c0⟩ := p
    by_cases hq : q = k
    · simp [mapGet, hq] at h
      simp [mapRemove, hq, sumStored_cons, h]
      omega
    · simp only [mapGet, hq, if_false] at h
      have := ih h
      simp [mapRemove, hq, sumStored_cons]
      omega

theorem mapGet_le_sumStored {l : List (K × Nat)} {k : K} {c : Nat}
    (h : mapGet l k = some c) : c ≤ sumStored l := by
  have := sumStored_mapRemove h
  omega

theorem mapGet_mapRemove_of_ne {q k : K} (h : q ≠ k) (l : List (K × Nat)) :
    mapGet (mapRemove l q).2 k = mapGet l k := by
  induction l with
  | nil => simp [mapRemove]
  | cons p rest ih =>
    obtain ⟨r, c⟩ := p
    by_cases hr : r = q
    · subst hr
      simp [mapRemove, mapGet, h]
    · simp [mapRemove, mapGet, hr, ih]

theorem keys_mapIncr (l : List (K × Nat)) (k : K) (i : Nat) :
    (mapIncr l k i).map Prod.fst = l.map Prod.fst := by
  induction l with
  | nil => simp [mapIncr]
  | cons p rest ih =>
    obtain ⟨q, c⟩ := p
    by_cases h : q = k <;> simp [mapIncr, h, ih]

theorem mapRemove_keys_sublist (l : List (K × Nat)) (k : K) :
    ((mapRemove l k).2.map Prod.fst).Sublist (l.map Prod.fst) := by
  induction l with
  | nil => simp [mapRemove]
  | cons p rest ih =>
    obtain ⟨q, c⟩ := p
    by_cases h : q = k
    · simp only [mapRemove, h, if_true]
      exact (List.sublist_cons_self _ _)
    · simp only [mapRemove, h, if_false, List.map_cons]
      exact ih.cons₂ q

theorem mapGet_eq_none_iff_not_mem (l : List (K × Nat)) (k : K) :
    mapGet l k = none ↔ k ∉ l.map Prod.fst := by
  induction l with
  | nil => simp [mapGet]
  | cons p rest ih =>
    obtain ⟨q, c⟩ := p
    by_cases h : q = k
    · subst h
      simp [mapGet]
    · have hk : ¬ k = q := fun hk => h hk.symm
      simp only [mapGet, h, if_false, List.map_cons, List.mem_cons, not_or, ih]
      tauto

theorem not_pair_mem_of_mapGet_none {l : List (K × Nat)} {k : K}
    (h : mapGet l k = none) (c : Nat) : (k, c) ∉ l := by
  intro hmem
  have hk : k ∈ l.map Prod.fst := List.mem_map.mpr ⟨(k, c), hmem, rfl⟩
  exact (mapGet_eq_none_iff_not_mem l k).mp h hk

theorem mapGet_mapRemove_self_of_nodup {l : List (K × Nat)} {k : K}
    (h : (l.map Prod.fst).Nodup) : mapGet (mapRemove l k).2 k = none := by
  induction l with
  | nil => simp [mapRemove, mapGet]
  | cons p rest ih =>
    obtain ⟨q, c⟩ := p
    simp only [List.map_cons, List.nodup_cons] at h
    by_cases hq : q = k
    · subst hq
      simp only [mapRemove, if_true]
      exact (mapGet_eq_none_iff_not_mem rest q).mpr h.1
    · simp only [mapRemove, hq, if_false]
      simp only [mapGet, hq, if_false]
      exact ih h.2

theorem mem_nonZeroKeys_iff (l : List (K × Nat)) (k : K) :
    k ∈ nonZeroKeys l ↔ ∃ c, (k, c) ∈ l ∧ 0 < c := by
  induction l with
  | nil => simp [nonZeroKeys]
  | cons p rest ih =>
    obtain ⟨q, c⟩ := p
    by_cases h : 0 < c
    · simp only [nonZeroKeys, h, if_true, List.mem_cons, ih]
      constructor
      · rintro (rfl | ⟨c0, hmem, hc0⟩)
        · exact ⟨c, Or.inl rfl, h⟩
        · exact ⟨c0, Or.inr hmem, hc0⟩
      · rintro ⟨c0, (heq | hmem), hc0⟩
        · exact Or.inl (congrArg Prod.fst heq)
        · exact Or.inr ⟨c0, hmem, hc0⟩
    · simp only [nonZeroKeys, h, if_false, ih, List.mem_cons]
      constructor
      · rintro ⟨c0, hmem, hc0⟩
        exact ⟨c0, Or.inr hmem, hc0⟩
      · rintro ⟨c0, (heq | hmem), hc0⟩
        · cases heq
          exact absurd hc0 h
        · exact ⟨c0, hmem, hc0⟩

theorem mapContains_cons_eq_false {q : K} {c : Nat} {rest : List (K × Nat)}
    {k : K} (h : mapContains ((q, c) :: rest) k = false) :
    q ≠ k ∧ mapContains rest k = false := by
  by_cases hq : q = k
  · simp [mapContains, hq] at h
  · simp only [mapContains, hq, if_false] at h
    exact ⟨hq, h⟩

theorem mapGet_append_singleton_of_ne {q k : K} (h : q ≠ k)
    (l : List (K × Nat)) (i : Nat) :
    mapGet (l ++ [(q, i)]) k = mapGet l k := by
  induction l with
  | nil => simp [mapGet, h]
  | cons p rest ih =>
    obtain ⟨r, c⟩ := p
    by_cases hr : r = k <;> simp [mapGet, hr, ih]

theorem keySum_cons_self (k : K) (i : Nat) (rest : List (K × Nat)) :
    keySum ((k, i) :: rest) k = i + keySum rest k := by
  simp [keySum, List.filter]

theorem keySum_cons_of_ne {q k : K} (h : q ≠ k) (i : Nat)
    (rest : List (K × Nat)) : keySum ((q, i) :: rest) k = keySum rest k := by
  simp [keySum, List.filter, h]

theorem keySum_eq_zero_of_not_mem {ps : List (K × Nat)} {k : K}
    (h : k ∉ ps.map Prod.fst) : keySum ps k = 0 := by
  induction ps with
  | nil => simp [keySum]
  | cons p rest ih =>
    obtain ⟨q, i⟩ := p
    simp only [List.map_cons, List.mem_cons, not_or] at h
    have hq : q ≠ k := fun hq => h.1 hq.symm
    rw [keySum_cons_of_ne hq, ih h.2]

theorem keySum_of_nodup_mem {ps : List (K × Nat)} {k : K} {c : Nat}
    (hnd : (ps.map Prod.fst).Nodup) (hmem : (k, c) ∈ ps) :
    keySum ps k = c := by
  induction ps with
  | nil => simp at hmem
  | cons p rest ih =>
    obtain ⟨q, i⟩ := p
    simp only [List.map_cons, List.nodup_cons] at hnd
    rcases List.mem_cons.mp hmem with heq | hmem2
    · have hq : k = q := congrArg Prod.fst heq
      have hcv : c = i := congrArg Prod.snd heq
      subst hq
      subst hcv
      rw [keySum_cons_self, keySum_eq_zero_of_not_mem hnd.1]
      omega
    · have hkmem : k ∈ rest.map Prod.fst :=
        List.mem_map.mpr ⟨(k, c), hmem2, rfl⟩
      have hq : q ≠ k := fun hq => hnd.1 (hq ▸ hkmem)
      rw [keySum_cons_of_ne hq, ih hnd.2 hmem2]

/-! Lemmas about the FrequencyDistribution operations. -/

namespace FrequencyDistribution

theorem get_eq_zero_of_none {d : FrequencyDistribution K} {k : K}
    (h : mapGet d.hashmap k = none) : d.get k = 0 := by
  simp [get, index, h]

theorem get_eq_of_some {d : FrequencyDistribution K} {k : K} {c : Nat}
    (h : mapGet d.hashmap k = some c) : d.get k = c := by
  simp [get, index, h]

theorem sum_counts_insert_or_incr_by (d : FrequencyDistribution K) (k : K)
    (i : Nat) : (d.insert_or_incr_by k i).sum_counts = d.sum_counts + i := by
  unfold insert_or_incr_by
  split <;> rfl

theorem mapGet_insert_or_incr_by_self (d : FrequencyDistribution K) (k : K)
    (i : Nat) :
    mapGet (d.insert_or_incr_by k i).hashmap k = some (d.get k + i) := by
  unfold insert_or_incr_by
  split
  next h =>
    have hn : mapGet d.hashmap k = none := (mapContains_eq_false_iff _ _).mp h
    show mapGet (d.hashmap ++ [(k, i)]) k = some (d.get k + i)
    rw [mapGet_append_of_none hn, mapGet_singleton, get_eq_zero_of_none hn]
    simp
  next h =>
    have hs : mapGet d.hashmap k ≠ none := fun hn =>
      h ((mapContains_eq_false_iff _ _).mpr hn)
    obtain ⟨c, hc⟩ := Option.ne_none_iff_exists.mp hs
    show mapGet (mapIncr d.hashmap k i) k = some (d.get k + i)
    rw [mapGet_mapIncr_self, ← hc, get_eq_of_some hc.symm]
    rfl

theorem get_insert_or_incr_by_self (d : FrequencyDistribution K) (k : K)
    (i : Nat) : (d.insert_or_incr_by k i).get k = d.get k + i :=
  get_eq_of_some (mapGet_insert_or_incr_by_self d k i)

theorem mapGet_insert_or_incr_by_of_ne {q k : K} (h : q ≠ k)
    (d : FrequencyDistribution K) (i : Nat) :
    mapGet (d.insert_or_incr_by q i).hashmap k = mapGet d.hashmap k := by
  unfold insert_or_incr_by
  split
  · exact mapGet_append_singleton_of_ne h d.hashmap i
  · exact mapGet_mapIncr_of_ne h d.hashmap i

theorem get_insert_or_incr_by_of_ne {q k : K} (h : q ≠ k)
    (d : FrequencyDistribution K) (i : Nat) :
    (d.insert_or_incr_by q i).get k = d.get k := by
  simp [get, index, mapGet_insert_or_incr_by_of_ne h]

theorem sumStored_insert_or_incr_by (d : FrequencyDistribution K) (k : K)
    (i : Nat) :
    sumStored (d.insert_or_incr_by k i).hashmap = sumStored d.hashmap + i := by
  unfold insert_or_incr_by
  split
  next h =>
    show sumStored (d.hashmap ++ [(k, i)]) = sumStored d.hashmap + i
    rw [sumStored_append]
    simp [sumStored]
  next h =>
    show sumStored (mapIncr d.hashmap k i) = sumStored d.hashmap + i
    exact sumStored_mapIncr (by simpa using h) i

theorem nodup_insert_or_incr_by {d : FrequencyDistribution K}
    (h : (d.hashmap.map Prod.fst).Nodup) (k : K) (i : Nat) :
    ((d.insert_or_incr_by k i).hashmap.map Prod.fst).Nodup := by
  unfold insert_or_incr_by
  split
  next hc =>
    have hn : mapGet d.hashmap k = none := (mapContains_eq_false_iff _ _).mp hc
    have hnm : k ∉ d.hashmap.map Prod.fst :=
      (mapGet_eq_none_iff_not_mem _ _).mp hn
    show (List.map Prod.fst (d.hashmap ++ [(k, i)])).Nodup
    rw [List.map_append]
    refine List.Nodup.append h (List.nodup_singleton k) ?_
    intro a ha hb
    simp only [List.map_cons, List.map_nil, List.mem_singleton] at hb
    subst hb
    exact hnm ha
  next hc =>
    show (List.map Prod.fst (mapIncr d.hashmap k i)).Nodup
    rw [keys_mapIncr]
    exact h

theorem remove_of_none {d : FrequencyDistribution K} {k : K}
    (h : mapGet d.hashmap k = none) : d.remove k = d := by
  unfold remove
  have hfst : (mapRemove d.hashmap k).1 = none := by
    rw [mapRemove_fst]
    exact h
  have h1 : mapRemove d.hashmap k = (none, (mapRemove d.hashmap k).2) := by
    rw [← hfst]
  rw [h1]

theorem remove_of_some {d : FrequencyDistribution K} {k : K} {c : Nat}
    (h : mapGet d.hashmap k = some c) :
    d.remove k = ⟨(mapRemove d.hashmap k).2, d.sum_counts - c⟩ := by
  unfold remove
  have hfst : (mapRemove d.hashmap k).1 = some c := by
    rw [mapRemove_fst]
    exact h
  have h1 : mapRemove d.hashmap k = (some c, (mapRemove d.hashmap k).2) := by
    rw [← hfst]
  rw [h1]

theorem extend_cons (d : FrequencyDistribution K) (q : K) (i : Nat)
    (rest : List (K × Nat)) :
    d.extend ((q, i) :: rest) = (d.insert_or_incr_by q i).extend rest := rfl

theorem get_extend (d : FrequencyDistribution K) (ps : List (K × Nat))
    (k : K) : (d.extend ps).get k = d.get k + keySum ps k := by
  induction ps generalizing d with
  | nil => simp [extend, keySum]
  | cons p rest ih =>
    obtain ⟨q, i⟩ := p
    rw [extend_cons, ih]
    by_cases h : q = k
    · subst h
      rw [get_insert_or_incr_by_self, keySum_cons_self]
      omega
    · rw [get_insert_or_incr_by_of_ne h, keySum_cons_of_ne h]

theorem sum_counts_extend (d : FrequencyDistribution K)
    (ps : List (K × Nat)) :
    (d.extend ps).sum_counts = d.sum_counts + sumStored ps := by
  induction ps generalizing d with
  | nil => simp [extend, sumStored]
  | cons p rest ih =>
    obtain ⟨q, i⟩ := p
    rw [extend_cons, ih, sum_counts_insert_or_incr_by, sumStored_cons]
    omega

end FrequencyDistribution

/-- The keys stored in the backing map are pairwise distinct (the HashMap
keeps keys unique; the model maintains this across every operation). -/
abbrev KeysNodup (d : FrequencyDistribution K) : Prop :=
  (d.hashmap.map Prod.fst).Nodup

theorem extend_preserve (P : FrequencyDistribution K → Prop)
    (hstep : ∀ a k i, P a → P (a.insert_or_incr_by k i))
    {d : FrequencyDistribution K} (h : P d) (ps : List (K × Nat)) :
    P (d.extend ps) := by
  induction ps generalizing d with
  | nil => exact h
  | cons p rest ih =>
    obtain ⟨q, i⟩ := p
    rw [FrequencyDistribution.extend_cons]
    exact ih (hstep d q i h)

theorem inv_insert_or_incr_by {d : FrequencyDistribution K} (h : Inv d)
    (k : K) (i : Nat) : Inv (d.insert_or_incr_by k i) := by
  have h2 : sumStored d.hashmap ≤ d.sum_counts := h
  show sumStored (d.insert_or_incr_by k i).hashmap ≤
    (d.insert_or_incr_by k i).sum_counts
  rw [FrequencyDistribution.sumStored_insert_or_incr_by,
    FrequencyDistribution.sum_counts_insert_or_incr_by]
  omega

theorem inv_remove {d : FrequencyDistribution K} (h : Inv d) (k : K) :
    Inv (d.remove k) := by
  rcases ho : mapGet d.hashmap k with _ | c
  · rw [FrequencyDistribution.remove_of_none ho]
    exact h
  · rw [FrequencyDistribution.remove_of_some ho]
    have h1 := sumStored_mapRemove ho
    have h2 : sumStored d.hashmap ≤ d.sum_counts := h
    show sumStored (mapRemove d.hashmap k).2 ≤ d.sum_counts - c
    omega

theorem inv_clear (d : FrequencyDistribution K) : Inv d.clear := by
  show sumStored ([] : List (K × Nat)) ≤ d.sum_counts
  simp [sumStored]

theorem inv_applyOp {d : FrequencyDistribution K} (h : Inv d) (op : Op K) :
    Inv (applyOp d op) := by
  cases op with
  | insert k => exact inv_insert_or_incr_by h k 1
  | extend ps =>
    exact extend_preserve Inv (fun a k i ha => inv_insert_or_incr_by ha k i)
      h ps
  | remove k => exact inv_remove h k
  | clear => exact inv_clear d

theorem inv_applyOps {d : FrequencyDistribution K} (h : Inv d)
    (ops : List (Op K)) : Inv (applyOps d ops) := by
  induction ops generalizing d with
  | nil => exact h
  | cons op rest ih => exact ih (inv_applyOp h op)

theorem inv_empty : Inv (⟨[], 0⟩ : FrequencyDistribution K) := by
  show sumStored ([] : List (K × Nat)) ≤ 0
  simp [sumStored]

theorem inv_runInit (i : InitOp K) : Inv (runInit i) := by
  cases i with
  | new => exact inv_empty
  | with_capacity n => exact inv_empty
  | from_iterator hint ps =>
    obtain ⟨lo, hi⟩ := hint
    cases hi with
    | none =>
      exact extend_preserve Inv
        (fun a k i ha => inv_insert_or_incr_by ha k i) inv_empty ps
    | some u =>
      exact extend_preserve Inv
        (fun a k i ha => inv_insert_or_incr_by ha k i) inv_empty ps

theorem nodup_remove {d : FrequencyDistribution K} (h : KeysNodup d)
    (k : K) : KeysNodup (d.remove k) := by
  rcases ho : mapGet d.hashmap k with _ | c
  · rw [FrequencyDistribution.remove_of_none ho]
    exact h
  · rw [FrequencyDistribution.remove_of_some ho]
    exact List.Nodup.sublist (mapRemove_keys_sublist d.hashmap k) h

theorem nodup_applyOp {d : FrequencyDistribution K} (h : KeysNodup d)
    (op : Op K) : KeysNodup (applyOp d op) := by
  cases op with
  | insert k => exact FrequencyDistribution.nodup_insert_or_incr_by h k 1
  | extend ps =>
    exact extend_preserve KeysNodup
      (fun a k i ha => FrequencyDistribution.nodup_insert_or_incr_by ha k i)
      h ps
  | remove k => exact nodup_remove h k
  | clear => exact List.nodup_nil

theorem nodup_applyOps {d : FrequencyDistribution K} (h : KeysNodup d)
    (ops : List (Op K)) : KeysNodup (applyOps d ops) := by
  induction ops generalizing d with
  | nil => exact h
  | cons op rest ih => exact ih (nodup_applyOp h op)

theorem nodup_runInit (i : InitOp K) : KeysNodup (runInit i) := by
  cases i with
  | new => exact List.nodup_nil
  | with_capacity n => exact List.nodup_nil
  | from_iterator hint ps =>
    obtain ⟨lo, hi⟩ := hint
    have hbase : KeysNodup (⟨[], 0⟩ : FrequencyDistribution K) :=
      List.nodup_nil
    cases hi with
    | none =>
      exact extend_preserve KeysNodup
        (fun a k i ha => FrequencyDistribution.nodup_insert_or_incr_by ha k i)
        hbase ps
    | some u =>
      exact extend_preserve KeysNodup
        (fun a k i ha => FrequencyDistribution.nodup_insert_or_incr_by ha k i)
        hbase ps

theorem absent_extend {d : FrequencyDistribution K} {k : K}
    (h : mapGet d.hashmap k = none) {ps : List (K × Nat)}
    (hps : mapContains ps k = false) :
    mapGet (d.extend ps).hashmap k = none := by
  induction ps generalizing d with
  | nil => exact h
  | cons p rest ih =>
    obtain ⟨q, i⟩ := p
    obtain ⟨hq, hrest⟩ := mapContains_cons_eq_false hps
    rw [FrequencyDistribution.extend_cons]
    refine ih ?_ hrest
    rw [FrequencyDistribution.mapGet_insert_or_incr_by_of_ne hq]
    exact h

theorem absent_applyOp {d : FrequencyDistribution K} {k : K}
    (h : mapGet d.hashmap k = none) {op : Op K}
    (hop : opInserts op k = false) :
    mapGet (applyOp d op).hashmap k = none := by
  cases op with
  | insert q =>
    have hq : q ≠ k := by simpa [opInserts] using hop
    show mapGet (d.insert_or_incr_by q 1).hashmap k = none
    rw [FrequencyDistribution.mapGet_insert_or_incr_by_of_ne hq]
    exact h
  | extend ps =>
    exact absent_extend h (by simpa [opInserts] using hop)
  | remove q =>
    show mapGet (d.remove q).hashmap k = none
    by_cases hq : q = k
    · subst hq
      rw [FrequencyDistribution.remove_of_none h]
      exact h
    · rcases ho : mapGet d.hashmap q with _ | c
      · rw [FrequencyDistribution.remove_of_none ho]
        exact h
      · rw [FrequencyDistribution.remove_of_some ho]
        show mapGet (mapRemove d.hashmap q).2 k = none
        rw [mapGet_mapRemove_of_ne hq]
        exact h
  | clear =>
    show mapGet ([] : List (K × Nat)) k = none
    rfl

theorem absent_applyOps {d : FrequencyDistribution K} {k : K}
    (h : mapGet d.hashmap k = none) {ops : List (Op K)}
    (hops : ∀ op ∈ ops, opInserts op k = false) :
    mapGet (applyOps d ops).hashmap k = none := by
  induction ops generalizing d with
  | nil => exact h
  | cons op rest ih =>
    have h1 := absent_applyOp h (hops op (List.mem_cons_self op rest))
    exact ih h1 fun o ho => hops o (List.mem_cons_of_mem op ho)

theorem absent_runInit {i : InitOp K} {k : K}
    (h : initMentions i k = false) :
    mapGet (runInit i).hashmap k = none := by
  cases i with
  | new => rfl
  | with_capacity n => rfl
  | from_iterator hint ps =>
    obtain ⟨lo, hi⟩ := hint
    have hps : mapContains ps k = false := by simpa [initMentions] using h
    have hbase : mapGet (⟨[], 0⟩ : FrequencyDistribution K).hashmap k = none :=
      rfl
    cases hi with
    | none => exact absent_extend hbase hps
    | some u => exact absent_extend hbase hps

theorem from_iter_eq_extend_new (hint : Nat × Option Nat)
    (ps : List (K × Nat)) :
    FrequencyDistribution.from_iter hint ps =
      (FrequencyDistribution.new (K := K)).extend ps := by
  obtain ⟨lo, hi⟩ := hint
  cases hi <;> rfl

/-! Claim theorems. -/

/-- Claim C1: the code violates this claim.  Clearing a distribution that
held key 1 with count 1 does leave len() = 0 and get(1) = 0, but
Distribution::clear only calls self.hashmap.clear() and never resets the
sum_counts field, so sum_counts() is still 1 after the call instead of the
claimed 0. -/
theorem C1_clear_keeps_sum_counts :
    (((FrequencyDistribution.new (K := Nat)).insert 1).clear).len = 0 ∧
    (((FrequencyDistribution.new (K := Nat)).insert 1).clear).get 1 = 0 ∧
    (((FrequencyDistribution.new (K := Nat)).insert 1).clear).sum_counts = 1 := by
  decide

/-- Claim C2: the code violates this claim at clear().  After the operation
sequence insert(1); clear() starting from new(), the sum of the stored
counts is 0 while sum_counts() returns 1, so the claimed invariant fails
after a public operation completes. -/
theorem C2_sum_invariant_fails_at_clear :
    sumStored (applyOps (runInit (InitOp.new (K := Nat)))
      [Op.insert 1, Op.clear]).hashmap = 0 ∧
    (applyOps (runInit (InitOp.new (K := Nat)))
      [Op.insert 1, Op.clear]).sum_counts = 1 := by
  decide

/-- Claim C3: get returns the stored count of a key, and 0 when the key is
absent; in particular, after any history built from a public constructor
followed by public operations none of which carries the key, the key is
still absent and get returns 0.  (In this embedding get is a pure function
of the distribution, so it cannot modify it.) -/
theorem C3_get_contract :
    (∀ (d : FrequencyDistribution K) (k : K),
      mapGet d.hashmap k = none → d.get k = 0) ∧
    (∀ (d : FrequencyDistribution K) (k : K) (c : Nat),
      mapGet d.hashmap k = some c → d.get k = c) ∧
    (∀ (i : InitOp K) (ops : List (Op K)) (k : K),
      initMentions i k = false → (∀ op ∈ ops, opInserts op k = false) →
      (applyOps (runInit i) ops).get k = 0) := by
  refine ⟨?_, ?_, ?_⟩
  · intro d k h
    exact FrequencyDistribution.get_eq_zero_of_none h
  · intro d k c h
    exact FrequencyDistribution.get_eq_of_some h
  · intro i ops k hi hops
    exact FrequencyDistribution.get_eq_zero_of_none
      (absent_applyOps (absent_runInit hi) hops)

/-- Witness for C3: key 2 was never inserted during new(); insert(1);
remove(2), and get(2) returns 0 there. -/
theorem C3_get_contract_witness :
    (applyOps (runInit (InitOp.new (K := Nat)))
      [Op.insert 1, Op.remove 2]).get 2 = 0 :=
  (C3_get_contract (K := Nat)).2.2 InitOp.new [Op.insert 1, Op.remove 2] 2
    (by decide) (by decide)

/-- Claim C4: insert(k) increments the stored count of k by exactly 1 (an
absent key reads as 0 before and 1 after), increments sum_counts() by
exactly 1, and leaves every other key's count unchanged. -/
theorem C4_insert_increments (d : FrequencyDistribution K) (k : K) :
    (d.insert k).sum_counts = d.sum_counts + 1 ∧
    (d.insert k).get k = d.get k + 1 ∧
    ∀ q, q ≠ k → (d.insert k).get q = d.get q := by
  refine ⟨?_, ?_, ?_⟩
  · exact FrequencyDistribution.sum_counts_insert_or_incr_by d k 1
  · exact FrequencyDistribution.get_insert_or_incr_by_self d k 1
  · intro q hq
    exact FrequencyDistribution.get_insert_or_incr_by_of_ne
      (fun h => hq h.symm) d 1

/-- Witness for C4 at the distribution holding key 1, inserting key 1 and
reading key 2. -/
theorem C4_insert_increments_witness :
    (((FrequencyDistribution.new (K := Nat)).insert 1).insert 1).get 2 =
      ((FrequencyDistribution.new (K := Nat)).insert 1).get 2 :=
  (C4_insert_increments ((FrequencyDistribution.new (K := Nat)).insert 1)
    1).2.2 2 (by decide)

/-- Claim C5: in a distribution with unique stored keys satisfying the sum
invariant (both hold in every reachable state), remove(k) on a key present
with count c deletes the entry, lowers sum_counts() by exactly c, makes
get(k) read 0, and a second remove(k) right after changes nothing; remove(k)
on an absent key is a no-op returning the distribution unchanged. -/
theorem C5_remove_contract (d : FrequencyDistribution K) (k : K)
    (hnd : KeysNodup d) (hinv : Inv d) :
    (∀ c, mapGet d.hashmap k = some c →
      mapGet (d.remove k).hashmap k = none ∧
      (d.remove k).sum_counts + c = d.sum_counts ∧
      (d.remove k).get k = 0 ∧
      (d.remove k).remove k = d.remove k) ∧
    (mapGet d.hashmap k = none → d.remove k = d) := by
  constructor
  · intro c hc
    have h1 : mapGet (mapRemove d.hashmap k).2 k = none :=
      mapGet_mapRemove_self_of_nodup hnd
    have h2 : c ≤ sumStored d.hashmap := mapGet_le_sumStored hc
    have h3 : sumStored d.hashmap ≤ d.sum_counts := hinv
    rw [FrequencyDistribution.remove_of_some hc]
    refine ⟨h1, ?_, ?_, ?_⟩
    · show d.sum_counts - c + c = d.sum_counts
      omega
    · exact FrequencyDistribution.get_eq_zero_of_none h1
    · exact FrequencyDistribution.remove_of_none h1
  · exact FrequencyDistribution.remove_of_none

/-- Witness for C5: removing key 1 from the singleton distribution with
count 1 empties it and restores sum_counts 1 on re-adding the count. -/
theorem C5_remove_contract_witness :
    (((FrequencyDistribution.new (K := Nat)).insert 1).remove 1).sum_counts
        + 1 = ((FrequencyDistribution.new (K := Nat)).insert 1).sum_counts ∧
    (((FrequencyDistribution.new (K := Nat)).insert 1).remove 1).get 1 = 0 := by
  have h := (C5_remove_contract ((FrequencyDistribution.new (K := Nat)).insert 1)
    1 (by decide) (by decide)).1 1 (by decide)
  exact ⟨h.2.1, h.2.2.1⟩

/-- Claim C6: extend and from_iter apply insert_or_incr_by to each pair in
order, so pairs with the same key accumulate: after extend every key reads
its previous count plus the total increment carried for it by the pairs,
and sum_counts grows by the total of all increments; when the keys of the
input pairs are pairwise distinct, the built distribution reads back each
pair's increment exactly and its sum_counts is the sum of all increments. -/
theorem C6_extend_accumulates :
    (∀ (d : FrequencyDistribution K) (ps : List (K × Nat)) (k : K),
      (d.extend ps).get k = d.get k + keySum ps k) ∧
    (∀ (d : FrequencyDistribution K) (ps : List (K × Nat)),
      (d.extend ps).sum_counts = d.sum_counts + sumStored ps) ∧
    (∀ (hint : Nat × Option Nat) (ps : List (K × Nat)) (k : K),
      (FrequencyDistribution.from_iter hint ps).get k = keySum ps k) ∧
    (∀ (hint : Nat × Option Nat) (ps : List (K × Nat)),
      (FrequencyDistribution.from_iter hint ps).sum_counts = sumStored ps) ∧
    (∀ (hint : Nat × Option Nat) (ps : List (K × Nat)) (k : K) (c : Nat),
      (ps.map Prod.fst).Nodup → (k, c) ∈ ps →
      (FrequencyDistribution.from_iter hint ps).get k = c) := by
  have hget : ∀ (hint : Nat × Option Nat) (ps : List (K × Nat)) (k : K),
      (FrequencyDistribution.from_iter hint ps).get k = keySum ps k := by
    intro hint ps k
    rw [from_iter_eq_extend_new, FrequencyDistribution.get_extend]
    show 0 + keySum ps k = keySum ps k
    omega
  refine ⟨FrequencyDistribution.get_extend,
    FrequencyDistribution.sum_counts_extend, hget, ?_, ?_⟩
  · intro hint ps
    rw [from_iter_eq_extend_new, FrequencyDistribution.sum_counts_extend]
    show 0 + sumStored ps = sumStored ps
    omega
  · intro hint ps k c hnd hmem
    rw [hget, keySum_of_nodup_mem hnd hmem]

/-- Witness for C6: building from [(1,5), (2,7)] with an exact size hint
reads back 5 for key 1. -/
theorem C6_extend_accumulates_witness :
    (FrequencyDistribution.from_iter (2, some 2) [(1, 5), (2, 7)]).get 1 = 5 :=
  (C6_extend_accumulates (K := Nat)).2.2.2.2 (2, some 2) [(1, 5), (2, 7)] 1 5
    (by decide) (by decide)

/-- Claim C7: iter_non_zero yields exactly the stored keys whose stored
count is strictly positive, skipping stored entries with count 0; on the
distribution built from [("a",50), ("b",100), ("c",75), ("d",0)] it yields
exactly the keys "a", "b" and "c". -/
theorem C7_iter_non_zero :
    (∀ (d : FrequencyDistribution K) (k : K),
      k ∈ d.iter_non_zero ↔ ∃ c, (k, c) ∈ d.iter ∧ 0 < c) ∧
    (∀ s : String,
      s ∈ (FrequencyDistribution.from_iter (4, some 4)
        [("a", 50), ("b", 100), ("c", 75), ("d", 0)]).iter_non_zero ↔
      (s = "a" ∨ s = "b" ∨ s = "c")) := by
  constructor
  · intro d k
    exact mem_nonZeroKeys_iff d.hashmap k
  · have hl : (FrequencyDistribution.from_iter (4, some 4)
        [("a", 50), ("b", 100), ("c", 75), ("d", 0)]).iter_non_zero =
        ["a", "b", "c"] := by decide
    intro s
    rw [hl]
    simp

/-- Witness for C7: key 1 with count 1 is yielded by iter_non_zero. -/
theorem C7_iter_non_zero_witness :
    (1 : Nat) ∈ ((FrequencyDistribution.new (K := Nat)).insert 1).iter_non_zero :=
  ((C7_iter_non_zero (K := Nat)).1 ((FrequencyDistribution.new (K := Nat)).insert 1)
    1).mpr ⟨1, by decide, by decide⟩

/-- Claim C8: capacity pre-sizing never changes observable behaviour:
with_capacity(n) has the same len, get on every key, and sum_counts as
new(), and from_iter with any size hint (lower bound, optional upper bound)
is equal to new() followed by extend on the same pairs. -/
theorem C8_capacity_unobservable (n : Nat) (hint : Nat × Option Nat)
    (ps : List (K × Nat)) :
    (FrequencyDistribution.with_capacity (K := K) n).len =
      (FrequencyDistribution.new (K := K)).len ∧
    (∀ k : K, (FrequencyDistribution.with_capacity (K := K) n).get k =
      (FrequencyDistribution.new (K := K)).get k) ∧
    (FrequencyDistribution.with_capacity (K := K) n).sum_counts =
      (FrequencyDistribution.new (K := K)).sum_counts ∧
    FrequencyDistribution.from_iter hint ps =
      (FrequencyDistribution.new (K := K)).extend ps :=
  ⟨rfl, fun _ => rfl, rfl, from_iter_eq_extend_new hint ps⟩

/-- Claim C9: extending with a pair (k, 0) for an absent key k stores an
entry with count 0: len grows by one, get(k) reads 0, sum_counts is
unchanged, the entry appears in the full (key, count) iteration, and k is
skipped by iter_non_zero. -/
theorem C9_zero_count_entry (d : FrequencyDistribution K) (k : K)
    (h : mapGet d.hashmap k = none) :
    (d.extend [(k, 0)]).len = d.len + 1 ∧
    (d.extend [(k, 0)]).get k = 0 ∧
    (d.extend [(k, 0)]).sum_counts = d.sum_counts ∧
    (k, 0) ∈ (d.extend [(k, 0)]).iter ∧
    k ∉ (d.extend [(k, 0)]).iter_non_zero := by
  have hc : mapContains d.hashmap k = false :=
    (mapContains_eq_false_iff _ _).mpr h
  have hmap : (d.extend [(k, 0)]).hashmap = d.hashmap ++ [(k, 0)] := by
    show (d.insert_or_incr_by k 0).hashmap = d.hashmap ++ [(k, 0)]
    unfold FrequencyDistribution.insert_or_incr_by
    rw [if_pos hc]
  refine ⟨?_, ?_, ?_, ?_, ?_⟩
  · show (d.extend [(k, 0)]).hashmap.length = d.hashmap.length + 1
    rw [hmap]
    simp
  · rw [FrequencyDistribution.get_extend,
      FrequencyDistribution.get_eq_zero_of_none h, keySum_cons_self]
    simp [keySum]
  · rw [FrequencyDistribution.sum_counts_extend]
    simp [sumStored]
  · show (k, 0) ∈ (d.extend [(k, 0)]).hashmap
    rw [hmap]
    exact List.mem_append_right _ (List.mem_singleton.mpr rfl)
  · intro hmem
    have hmem2 : k ∈ nonZeroKeys (d.extend [(k, 0)]).hashmap := hmem
    obtain ⟨c, hcmem, hcpos⟩ := (mem_nonZeroKeys_iff _ _).mp hmem2
    rw [hmap] at hcmem
    rcases List.mem_append.mp hcmem with hin | hin
    · exact not_pair_mem_of_mapGet_none h c hin
    · have : c = 0 := congrArg Prod.snd (List.mem_singleton.mp hin)
      omega

/-- Witness for C9 at the empty distribution and key 1. -/
theorem C9_zero_count_entry_witness :
    ((FrequencyDistribution.new (K := Nat)).extend [(1, 0)]).len =
        (FrequencyDistribution.new (K := Nat)).len + 1 ∧
    ((FrequencyDistribution.new (K := Nat)).extend [(1, 0)]).get 1 = 0 ∧
    ((FrequencyDistribution.new (K := Nat)).extend [(1, 0)]).sum_counts =
        (FrequencyDistribution.new (K := Nat)).sum_counts ∧
    (1, 0) ∈ ((FrequencyDistribution.new (K := Nat)).extend [(1, 0)]).iter ∧
    (1 : Nat) ∉ ((FrequencyDistribution.new (K := Nat)).extend
      [(1, 0)]).iter_non_zero :=
  C9_zero_count_entry (FrequencyDistribution.new (K := Nat)) 1 (by decide)

/-- Claim C10: every distribution reached from a public constructor by a
sequence of public operations keeps sum_counts at least the sum of all
stored counts — hence at least every individual stored count — so the
subtraction self.sum_counts -= count in remove never underflows, even in
histories containing clear(). -/
theorem C10_no_underflow (i : InitOp K) (ops : List (Op K)) :
    Inv (applyOps (runInit i) ops) ∧
    ∀ k c, mapGet (applyOps (runInit i) ops).hashmap k = some c →
      c ≤ (applyOps (runInit i) ops).sum_counts := by
  have hinv : Inv (applyOps (runInit i) ops) := inv_applyOps (inv_runInit i) ops
  refine ⟨hinv, ?_⟩
  intro k c hc
  exact le_trans (mapGet_le_sumStored hc) hinv

/-- Witness for C10 on a history that clears and re-inserts: the stored
count of key 2 is dominated by sum_counts. -/
theorem C10_no_underflow_witness :
    1 ≤ (applyOps (runInit (InitOp.new (K := Nat)))
      [Op.insert 1, Op.clear, Op.insert 2]).sum_counts :=
  (C10_no_underflow (InitOp.new (K := Nat))
    [Op.insert 1, Op.clear, Op.insert 2]).2 2 1 (by decide)

end Freqdist
